import Mathlib

/-!
Verification of the graph-traversal module (`src/main.py`).

The Python `Graph` stores an insertion-ordered dictionary `adj_list`
mapping each node to its insertion-ordered neighbor list.  We embed the
dictionary as an association list `List (α × List α)`: a Python `dict`
is insertion ordered, assignment to a present key updates its entry in
place, and assignment to a fresh key appends the entry at the end —
exactly the behavior of `setAdj` below.  Node values range over a type
`α` with decidable equality; in the Python source node values are
restricted to the hashable types `int`, `str` and `tuple`, so the
`isinstance` check in `add_edge` can never fail in the embedding (the
node type of an embedded graph is always an allowed type).  The
concrete sample graph uses `String` nodes, matching the source.

Exceptions become an `Except GraphError` result: `add_edge` is the only
core operation that can raise.
-/

set_option autoImplicit false
set_option maxRecDepth 8192

variable {α : Type} [DecidableEq α]

/-- Error taxonomy of the module: `add_edge` raises `TypeError`
(`InvalidNodeType` in the spec) on a disallowed node type and
`ValueError` (`SelfLoopError` in the spec) on a self loop.
`invalidNodeType` is never produced by the embedding because the node
type `α` always instantiates an allowed type. -/
inductive GraphError where
  | invalidNodeType : GraphError
  | selfLoopError : GraphError
deriving DecidableEq

/-- The adjacency-list graph: embedding of the Python `Graph` class,
whose single field is the dictionary `self.adj_list`. -/
structure Graph (α : Type) where
  adj_list : List (α × List α)
deriving DecidableEq

/-- Dictionary lookup `l[n]` on the association list: the value of the
first entry whose key is `n`. -/
def lookupAdj : List (α × List α) → α → Option (List α)
  | [], _ => none
  | e :: es, n => if e.1 = n then some e.2 else lookupAdj es n

/-- Dictionary assignment `l[k] = v`: updates the first entry with
key `k` in place, or appends a fresh entry at the end — the semantics
of assignment on an insertion-ordered Python `dict`. -/
def setAdj : List (α × List α) → α → List α → List (α × List α)
  | [], k, v => [(k, v)]
  | e :: es, k, v => if e.1 = k then (k, v) :: es else e :: setAdj es k v

/-- `list.remove(x)` guarded by `if x in list`: removes the first
occurrence of `x`, and is a no-op when `x` is absent. -/
def eraseFirst : List α → α → List α
  | [], _ => []
  | y :: ys, x => if y = x then ys else y :: eraseFirst ys x

/-- `Graph.add_node`: inserts `node` with an empty neighbor list when
absent; no-op otherwise. -/
def Graph.add_node (g : Graph α) (node : α) : Graph α :=
  if (lookupAdj g.adj_list node).isSome then g
  else Graph.mk (g.adj_list ++ [(node, [])])

/-- `self.adj_list.get(node, [])` — the body of `Graph.get_neighbors`:
the neighbor list of `node`, or `[]` when `node` is absent. -/
def Graph.get_neighbors (g : Graph α) (node : α) : List α :=
  (lookupAdj g.adj_list node).getD []

/-- One direction of edge insertion, the two symmetric halves of the
body of `add_edge`: `if t not in self.adj_list[f]:
self.adj_list[f].append(t)` (after `add_node` has ensured that `f` is
present, `self.adj_list[f]` and `get_neighbors f` coincide). -/
def addDirected (g : Graph α) (f t : α) : Graph α :=
  if t ∈ g.get_neighbors f then g
  else Graph.mk (setAdj g.adj_list f (g.get_neighbors f ++ [t]))

/-- `Graph.add_edge`: rejects self loops (`ValueError`, the spec's
`SelfLoopError`), auto-creates both endpoints, then appends each
endpoint to the other's neighbor list unless already present (the
reverse direction only when `bidirectional`).  The `isinstance` type
check of the source precedes the self-loop check but can never fail in
the embedding, see the module docstring. -/
def Graph.add_edge (g : Graph α) (from_node to_node : α) (bidirectional : Bool) :
    Except GraphError (Graph α) :=
  if from_node = to_node then Except.error GraphError.selfLoopError
  else
    let g1 := (g.add_node from_node).add_node to_node
    let g2 := addDirected g1 from_node to_node
    Except.ok (if bidirectional then addDirected g2 to_node from_node else g2)

/-- Body of `remove_node` when `node` is present: the loop
`for other_node in self.adj_list: ... remove(node)` followed by
`del self.adj_list[node]` — every neighbor list loses its (first)
occurrence of `node`, then `node`'s own entry is dropped. -/
def removeAllAdj (l : List (α × List α)) (node : α) : List (α × List α) :=
  (l.map (fun e => (e.1, eraseFirst e.2 node))).filter (fun e => decide (e.1 ≠ node))

/-- `Graph.remove_node`: no-op when `node` is absent; otherwise purges
`node` from every neighbor list and deletes its entry. -/
def Graph.remove_node (g : Graph α) (node : α) : Graph α :=
  if (lookupAdj g.adj_list node).isSome then Graph.mk (removeAllAdj g.adj_list node)
  else g

/-!
The traversal loops of the source (`while queue:` in `bfs` and
`shortest_path`, the recursion of `dfs_cycle`) are embedded with an
explicit fuel argument that strictly decreases at every dequeue or
recursive call, keeping every definition structurally recursive and
hence kernel-evaluable.  `Graph.fuelBound` — one more than the number
of dictionary entries plus the total length of all neighbor lists —
dominates the number of iterations each Python loop can perform, since
every iteration beyond the first dequeues a node that was enqueued
after a fresh insertion into the visited set, and the visited set only
ever receives the start node and members of neighbor lists.
-/

/-- Fuel that dominates the iteration count of every traversal loop of
the source on the graph `g`. -/
def Graph.fuelBound (g : Graph α) : Nat :=
  g.adj_list.length + (g.adj_list.map (fun e => e.2.length)).sum + 1

/-- The inner `for neighbor in graph.get_neighbors(current)` loop of
`bfs`: marks each not-yet-visited neighbor visited and appends it at
the tail of the queue, in stored neighbor order. -/
def enqueueNbrs : List α → List α → List α → List α × List α
  | [], visited, queue => (visited, queue)
  | nb :: nbs, visited, queue =>
    if nb ∈ visited then enqueueNbrs nbs visited queue
    else enqueueNbrs nbs (nb :: visited) (queue ++ [nb])

/-- The `while queue:` loop of `bfs`: dequeues from the front, appends
the dequeued node to the visitation order, then enqueues its unvisited
neighbors. -/
def bfsAux (g : Graph α) : Nat → List α → List α → List α → List α
  | 0, _, _, order => order
  | _ + 1, [], _, order => order
  | fuel + 1, current :: rest, visited, order =>
    let p := enqueueNbrs (g.get_neighbors current) visited rest
    bfsAux g fuel p.2 p.1 (order ++ [current])

/-- `bfs(graph, start)`: breadth-first visitation order from `start`;
`start` is marked visited and enqueued first. -/
def bfs (g : Graph α) (start : α) : List α :=
  bfsAux g g.fuelBound [start] [start] []

/-- `Graph.has_path`: `end in bfs(self, start)`. -/
def Graph.has_path (g : Graph α) (start end_node : α) : Bool :=
  decide (end_node ∈ bfs g start)

/-- The inner neighbor loop of `shortest_path`: each not-yet-visited
neighbor is marked visited and enqueued together with its accumulated
path extended by itself. -/
def spEnqueueNbrs : List α → List α → List (α × List α) → List α →
    List α × List (α × List α)
  | [], visited, queue, _ => (visited, queue)
  | nb :: nbs, visited, queue, path =>
    if nb ∈ visited then spEnqueueNbrs nbs visited queue path
    else spEnqueueNbrs nbs (nb :: visited) (queue ++ [(nb, path ++ [nb])]) path

/-- The `while queue:` loop of `shortest_path`: dequeues a
`(vertex, path)` pair, returns `path` as soon as `vertex` is the
target, otherwise enqueues the unvisited neighbors; `[]` when the
queue runs dry. -/
def spAux (g : Graph α) (target : α) : Nat → List (α × List α) → List α → List α
  | 0, _, _ => []
  | _ + 1, [], _ => []
  | fuel + 1, (vertex, path) :: rest, visited =>
    if vertex = target then path
    else
      let p := spEnqueueNbrs (g.get_neighbors vertex) visited rest path
      spAux g target fuel p.2 p.1

/-- `Graph.shortest_path`: soft-fails to `[]` when either endpoint is
absent, otherwise runs the path-carrying BFS from `start`. -/
def Graph.shortest_path (g : Graph α) (start end_node : α) : List α :=
  if (lookupAdj g.adj_list start).isNone || (lookupAdj g.adj_list end_node).isNone then []
  else spAux g end_node g.fuelBound [(start, [start])] [start]

/-- The `for neighbor in self.get_neighbors(node)` loop of
`dfs_cycle`, with the recursive call supplied as the function `rec`:
an unvisited neighbor is recursed into (returning `True` aborts the
loop at once), a visited neighbor distinct from the immediate parent
reports a cycle immediately. -/
def dfsCycleNbrs (rec : α → α → List α → Bool × List α) :
    List α → α → α → List α → Bool × List α
  | [], _, _, visited => (false, visited)
  | nb :: nbs, node, parent, visited =>
    if nb ∈ visited then
      if nb ≠ parent then (true, visited)
      else dfsCycleNbrs rec nbs node parent visited
    else
      match rec nb node visited with
      | (true, v2) => (true, v2)
      | (false, v2) => dfsCycleNbrs rec nbs node parent v2

/-- The recursive `dfs_cycle(node, parent, visited)` helper of
`is_cyclic`: marks `node` visited, then scans its neighbors.  The
shared mutable `visited` set of the source is threaded through
explicitly. -/
def dfs_cycle (g : Graph α) : Nat → α → α → List α → Bool × List α
  | 0, _, _, visited => (false, visited)
  | fuel + 1, node, parent, visited =>
    dfsCycleNbrs (dfs_cycle g fuel) (g.get_neighbors node) node parent (node :: visited)

/-- The outer `for node in self.adj_list` loop of `is_cyclic`: runs
`dfs_cycle(node, node, visited)` on each not-yet-visited node,
reusing the visited set across components. -/
def isCyclicAux (g : Graph α) : List α → List α → Bool
  | [], _ => false
  | n :: rest, visited =>
    if n ∈ visited then isCyclicAux g rest visited
    else
      match dfs_cycle g g.fuelBound n n visited with
      | (true, _) => true
      | (false, v2) => isCyclicAux g rest v2

/-- `Graph.is_cyclic`: parent-tracking depth-first cycle detection run
across every connected component. -/
def Graph.is_cyclic (g : Graph α) : Bool :=
  isCyclicAux g (g.adj_list.map Prod.fst) []

/-- The edge list of `build_sample_graph`, in source order. -/
def sampleEdges : List (String × String) :=
  [("A", "B"), ("A", "C"), ("B", "D"), ("B", "E"), ("C", "F"), ("E", "F"), ("F", "G")]

/-- `build_sample_graph()`: folds `add_edge` (default
`bidirectional=True`) over the sample edges, starting from the empty
graph. -/
def build_sample_graph : Except GraphError (Graph String) :=
  sampleEdges.foldlM (fun g e => g.add_edge e.1 e.2 true) (Graph.mk [])

/-- The sample edge list with the cycle-closing `E-F` edge omitted:
the resulting graph is an actual tree on the seven sample nodes. -/
def treeEdges : List (String × String) :=
  [("A", "B"), ("A", "C"), ("B", "D"), ("B", "E"), ("C", "F"), ("F", "G")]

/-- The tree-shaped variant of the sample graph, built the same way as
`build_sample_graph` from `treeEdges`. -/
def build_tree_graph : Except GraphError (Graph String) :=
  treeEdges.foldlM (fun g e => g.add_edge e.1 e.2 true) (Graph.mk [])

/-!
Data-model invariants of the spec (section 3): adjacency lists carry
no duplicates, and every node referenced as a neighbor is itself a key
of the dictionary.
-/

/-- Each adjacency list is duplicate-free (spec: "duplicates forbidden
within one adjacency list"). -/
def AdjNodup (g : Graph α) : Prop :=
  ∀ e ∈ g.adj_list, e.2.Nodup

instance (g : Graph α) : Decidable (AdjNodup g) :=
  inferInstanceAs (Decidable (∀ e ∈ g.adj_list, e.2.Nodup))

/-- Every node appearing in some neighbor list is a top-level key
(spec: "neighbors are never dangling"). -/
def NoDangling (g : Graph α) : Prop :=
  ∀ e ∈ g.adj_list, ∀ x ∈ e.2, (lookupAdj g.adj_list x).isSome = true

instance (g : Graph α) : Decidable (NoDangling g) :=
  inferInstanceAs (Decidable (∀ e ∈ g.adj_list, ∀ x ∈ e.2, (lookupAdj g.adj_list x).isSome = true))

/-! Association-list lemmas about `lookupAdj`, `setAdj`, `eraseFirst`
and `removeAllAdj`. -/

theorem lookupAdj_append_single (l : List (α × List α)) (n : α) (v : List α) (m : α) :
    lookupAdj (l ++ [(n, v)]) m =
      match lookupAdj l m with
      | some w => some w
      | none => if n = m then some v else none := by
  induction l with
  | nil => simp [lookupAdj]
  | cons e es ih =>
    by_cases h : e.1 = m
    · simp [lookupAdj, h]
    · simp [lookupAdj, h, ih]

theorem lookupAdj_mem {l : List (α × List α)} {n : α} {v : List α}
    (h : lookupAdj l n = some v) : (n, v) ∈ l := by
  induction l with
  | nil => simp [lookupAdj] at h
  | cons e es ih =>
    by_cases hen : e.1 = n
    · rw [lookupAdj, if_pos hen] at h
      obtain rfl : e.2 = v := Option.some.inj h
      refine List.mem_cons.mpr (Or.inl ?_)
      obtain ⟨e1, e2⟩ := e
      simp_all
    · rw [lookupAdj, if_neg hen] at h
      exact List.mem_cons_of_mem _ (ih h)

theorem setAdj_lookup_self (l : List (α × List α)) (k : α) (v : List α) :
    lookupAdj (setAdj l k v) k = some v := by
  induction l with
  | nil => simp [setAdj, lookupAdj]
  | cons e es ih =>
    by_cases h : e.1 = k
    · simp [setAdj, h, lookupAdj]
    · simp [setAdj, h, lookupAdj, ih]

theorem setAdj_lookup_ne (l : List (α × List α)) (k : α) (v : List α) (m : α)
    (h : m ≠ k) : lookupAdj (setAdj l k v) m = lookupAdj l m := by
  have hkm : ¬ k = m := Ne.symm h
  induction l with
  | nil => simp [setAdj, lookupAdj, hkm]
  | cons e es ih =>
    by_cases hek : e.1 = k
    · have hem : ¬ e.1 = m := by rw [hek]; exact hkm
      simp [setAdj, hek, lookupAdj, hem, hkm]
    · by_cases hem : e.1 = m
      · simp [setAdj, hek, lookupAdj, hem, h]
      · simp [setAdj, hek, lookupAdj, hem, ih]

theorem setAdj_lookup_isSome (l : List (α × List α)) (k : α) (v : List α) (x : α) :
    (lookupAdj (setAdj l k v) x).isSome = true ↔
      (x = k ∨ (lookupAdj l x).isSome = true) := by
  by_cases h : x = k
  · subst h; simp [setAdj_lookup_self]
  · rw [setAdj_lookup_ne l k v x h]
    simp [h]

theorem mem_setAdj {l : List (α × List α)} {k : α} {v : List α} {e : α × List α}
    (h : e ∈ setAdj l k v) : e ∈ l ∨ e = (k, v) := by
  induction l with
  | nil => simp [setAdj] at h; simp [h]
  | cons e0 es ih =>
    by_cases h0 : e0.1 = k
    · rw [setAdj, if_pos h0] at h
      rcases List.mem_cons.mp h with h | h
      · right; exact h
      · left; exact List.mem_cons_of_mem _ h
    · rw [setAdj, if_neg h0] at h
      rcases List.mem_cons.mp h with h | h
      · left; exact h ▸ List.mem_cons_self _ _
      · rcases ih h with h | h
        · left; exact List.mem_cons_of_mem _ h
        · right; exact h

theorem mem_eraseFirst {l : List α} {x y : α} (h : y ∈ eraseFirst l x) : y ∈ l := by
  induction l with
  | nil => simp [eraseFirst] at h
  | cons z zs ih =>
    by_cases hz : z = x
    · rw [eraseFirst, if_pos hz] at h
      exact List.mem_cons_of_mem _ h
    · rw [eraseFirst, if_neg hz] at h
      rcases List.mem_cons.mp h with h | h
      · exact h ▸ List.mem_cons_self _ _
      · exact List.mem_cons_of_mem _ (ih h)

theorem not_mem_eraseFirst_self {l : List α} (x : α) (h : l.Nodup) :
    x ∉ eraseFirst l x := by
  induction l with
  | nil => simp [eraseFirst]
  | cons z zs ih =>
    rcases List.nodup_cons.mp h with ⟨hz, hzs⟩
    by_cases hzx : z = x
    · rw [eraseFirst, if_pos hzx]
      exact hzx ▸ hz
    · rw [eraseFirst, if_neg hzx]
      intro hmem
      rcases List.mem_cons.mp hmem with h | h
      · exact hzx h.symm
      · exact ih hzs h

theorem removeAllAdj_cons (e : α × List α) (es : List (α × List α)) (x : α) :
    removeAllAdj (e :: es) x =
      if e.1 = x then removeAllAdj es x
      else (e.1, eraseFirst e.2 x) :: removeAllAdj es x := by
  by_cases hex : e.1 = x <;> simp [removeAllAdj, List.filter_cons, hex]

theorem lookupAdj_removeAllAdj_self (l : List (α × List α)) (x : α) :
    lookupAdj (removeAllAdj l x) x = none := by
  induction l with
  | nil => simp [removeAllAdj, lookupAdj]
  | cons e es ih =>
    by_cases h : e.1 = x
    · simpa [removeAllAdj, h] using ih
    · simpa [removeAllAdj, lookupAdj, h] using ih

theorem lookupAdj_removeAllAdj_ne (l : List (α × List α)) (x y : α) (h : y ≠ x) :
    lookupAdj (removeAllAdj l x) y = (lookupAdj l y).map (fun v => eraseFirst v x) := by
  induction l with
  | nil => simp [removeAllAdj, lookupAdj]
  | cons e es ih =>
    rw [removeAllAdj_cons]
    by_cases hex : e.1 = x
    · have hey : ¬ e.1 = y := by rw [hex]; exact Ne.symm h
      rw [if_pos hex, ih, lookupAdj, if_neg hey]
    · rw [if_neg hex]
      by_cases hey : e.1 = y
      · rw [lookupAdj, lookupAdj, if_pos hey, if_pos hey]; rfl
      · rw [lookupAdj, lookupAdj, if_neg hey, if_neg hey, ih]

theorem mem_removeAllAdj {l : List (α × List α)} {x : α} {e : α × List α}
    (h : e ∈ removeAllAdj l x) :
    ∃ e0 ∈ l, e = (e0.1, eraseFirst e0.2 x) ∧ e0.1 ≠ x := by
  rw [removeAllAdj] at h
  rcases List.mem_filter.mp h with ⟨hmap, hkey⟩
  rcases List.mem_map.mp hmap with ⟨e0, he0, heq⟩
  refine ⟨e0, he0, heq.symm, ?_⟩
  have := of_decide_eq_true hkey
  rw [← heq] at this
  exact this

/-! Lemmas about the mutation operations of `Graph`. -/

theorem add_node_lookup_self (g : Graph α) (n : α) :
    lookupAdj (g.add_node n).adj_list n = some (g.get_neighbors n) := by
  rw [Graph.add_node]
  cases h : lookupAdj g.adj_list n with
  | none =>
    rw [if_neg (by simp [h]), lookupAdj_append_single, h, if_pos rfl]
    simp [Graph.get_neighbors, h]
  | some v =>
    rw [if_pos (by simp [h]), h]
    simp [Graph.get_neighbors, h]

theorem add_node_lookup_ne (g : Graph α) (n m : α) (h : m ≠ n) :
    lookupAdj (g.add_node n).adj_list m = lookupAdj g.adj_list m := by
  rw [Graph.add_node]
  by_cases hn : (lookupAdj g.adj_list n).isSome = true
  · rw [if_pos hn]
  · rw [if_neg hn, lookupAdj_append_single]
    cases hm : lookupAdj g.adj_list m with
    | none => simp [Ne.symm h]
    | some v => simp

theorem add_node_of_isSome (g : Graph α) (n : α)
    (h : (lookupAdj g.adj_list n).isSome = true) : g.add_node n = g := by
  rw [Graph.add_node, if_pos h]

theorem add_node_lookup_isSome (g : Graph α) (n x : α)
    (h : (lookupAdj g.adj_list x).isSome = true) :
    (lookupAdj (g.add_node n).adj_list x).isSome = true := by
  by_cases hx : x = n
  · subst hx; rw [add_node_lookup_self]; rfl
  · rw [add_node_lookup_ne g n x hx]; exact h

theorem mem_add_node {g : Graph α} {n : α} {e : α × List α}
    (h : e ∈ (g.add_node n).adj_list) : e ∈ g.adj_list ∨ e = (n, []) := by
  rw [Graph.add_node] at h
  by_cases hn : (lookupAdj g.adj_list n).isSome = true
  · rw [if_pos hn] at h; exact Or.inl h
  · rw [if_neg hn] at h
    rcases List.mem_append.mp h with h | h
    · exact Or.inl h
    · exact Or.inr (by simpa using h)

theorem addDirected_mem_self (g : Graph α) (f t : α) :
    t ∈ (addDirected g f t).get_neighbors f := by
  rw [addDirected]
  by_cases h : t ∈ g.get_neighbors f
  · rw [if_pos h]; exact h
  · rw [if_neg h]
    show t ∈ (lookupAdj (setAdj g.adj_list f (g.get_neighbors f ++ [t])) f).getD []
    rw [setAdj_lookup_self]
    simp

theorem addDirected_get_neighbors_ne (g : Graph α) (f t m : α) (h : m ≠ f) :
    (addDirected g f t).get_neighbors m = g.get_neighbors m := by
  rw [addDirected]
  by_cases hmem : t ∈ g.get_neighbors f
  · rw [if_pos hmem]
  · rw [if_neg hmem]
    show (lookupAdj (setAdj g.adj_list f (g.get_neighbors f ++ [t])) m).getD [] = _
    rw [setAdj_lookup_ne _ _ _ _ h]
    rfl

theorem addDirected_of_mem (g : Graph α) (f t : α) (h : t ∈ g.get_neighbors f) :
    addDirected g f t = g := by
  rw [addDirected, if_pos h]

theorem addDirected_lookup_isSome (g : Graph α) (f t x : α)
    (h : (lookupAdj g.adj_list x).isSome = true) :
    (lookupAdj (addDirected g f t).adj_list x).isSome = true := by
  rw [addDirected]
  by_cases hmem : t ∈ g.get_neighbors f
  · rw [if_pos hmem]; exact h
  · rw [if_neg hmem]
    exact (setAdj_lookup_isSome _ _ _ _).mpr (Or.inr h)

theorem mem_addDirected {g : Graph α} {f t : α} {e : α × List α}
    (h : e ∈ (addDirected g f t).adj_list) :
    e ∈ g.adj_list ∨ e = (f, g.get_neighbors f ++ [t]) := by
  rw [addDirected] at h
  by_cases hmem : t ∈ g.get_neighbors f
  · rw [if_pos hmem] at h; exact Or.inl h
  · rw [if_neg hmem] at h
    exact mem_setAdj h

/-- Members of a neighbor list come from an actual dictionary entry:
either the list is empty (absent node) or the pair is an entry. -/
theorem get_neighbors_cases (g : Graph α) (y : α) :
    g.get_neighbors y = [] ∨ (y, g.get_neighbors y) ∈ g.adj_list := by
  rw [Graph.get_neighbors]
  cases h : lookupAdj g.adj_list y with
  | none => exact Or.inl rfl
  | some v => exact Or.inr (by simpa using lookupAdj_mem h)

/-- Characterization of a successful `add_edge` with default
bidirectionality: both endpoints are keys afterwards, and each is in
the other's neighbor list. -/
theorem add_edge_ok_props (g : Graph α) (a b : α) (g' : Graph α) (hne : a ≠ b)
    (h : g.add_edge a b true = Except.ok g') :
    (lookupAdj g'.adj_list a).isSome = true ∧
    (lookupAdj g'.adj_list b).isSome = true ∧
    b ∈ g'.get_neighbors a ∧ a ∈ g'.get_neighbors b := by
  rw [Graph.add_edge, if_neg hne] at h
  obtain rfl : addDirected (addDirected ((g.add_node a).add_node b) a b) b a = g' := by
    simpa using h
  set g1 := (g.add_node a).add_node b with hg1
  have hka : (lookupAdj g1.adj_list a).isSome = true := by
    rw [hg1, add_node_lookup_ne _ b a hne, add_node_lookup_self]; rfl
  have hkb : (lookupAdj g1.adj_list b).isSome = true := by
    rw [hg1, add_node_lookup_self]; rfl
  set g2 := addDirected g1 a b with hg2
  have hmem_ab : b ∈ g2.get_neighbors a := addDirected_mem_self g1 a b
  refine ⟨?_, ?_, ?_, ?_⟩
  · exact addDirected_lookup_isSome g2 b a a (addDirected_lookup_isSome g1 a b a hka)
  · exact addDirected_lookup_isSome g2 b a b (addDirected_lookup_isSome g1 a b b hkb)
  · rw [addDirected_get_neighbors_ne g2 b a a hne]; exact hmem_ab
  · exact addDirected_mem_self g2 b a

/-! Preservation of the no-dangling-neighbor invariant. -/

theorem noDangling_add_node (g : Graph α) (n : α) (hND : NoDangling g) :
    NoDangling (g.add_node n) := by
  intro e he x hx
  rcases mem_add_node he with he | he
  · exact add_node_lookup_isSome g n x (hND e he x hx)
  · rw [he] at hx
    simp at hx

theorem noDangling_addDirected (g : Graph α) (f t : α)
    (hkt : (lookupAdj g.adj_list t).isSome = true) (hND : NoDangling g) :
    NoDangling (addDirected g f t) := by
  intro e he x hx
  rcases mem_addDirected he with he | he
  · exact addDirected_lookup_isSome g f t x (hND e he x hx)
  · rw [he] at hx
    rcases List.mem_append.mp hx with hx | hx
    · rcases get_neighbors_cases g f with hnil | hmem
      · rw [hnil] at hx; simp at hx
      · exact addDirected_lookup_isSome g f t x (hND _ hmem x hx)
    · have hx' : x = t := by simpa using hx
      rw [hx']
      exact addDirected_lookup_isSome g f t t hkt

theorem noDangling_add_edge (g : Graph α) (a b : α) (bi : Bool) (g' : Graph α)
    (hND : NoDangling g) (h : g.add_edge a b bi = Except.ok g') :
    NoDangling g' := by
  by_cases hne : a = b
  · rw [Graph.add_edge, if_pos hne] at h
    exact absurd h (by simp)
  · rw [Graph.add_edge, if_neg hne] at h
    set g1 := (g.add_node a).add_node b with hg1
    have hka : (lookupAdj g1.adj_list a).isSome = true := by
      rw [hg1, add_node_lookup_ne _ b a hne, add_node_lookup_self]; rfl
    have hkb : (lookupAdj g1.adj_list b).isSome = true := by
      rw [hg1, add_node_lookup_self]; rfl
    have hND1 : NoDangling g1 := noDangling_add_node _ b (noDangling_add_node g a hND)
    have hND2 : NoDangling (addDirected g1 a b) := noDangling_addDirected g1 a b hkb hND1
    cases bi with
    | true =>
      obtain rfl : addDirected (addDirected g1 a b) b a = g' := by simpa using h
      exact noDangling_addDirected _ b a (addDirected_lookup_isSome g1 a b a hka) hND2
    | false =>
      obtain rfl : addDirected g1 a b = g' := by simpa using h
      exact hND2

theorem noDangling_remove_node (g : Graph α) (x : α)
    (hdup : AdjNodup g) (hND : NoDangling g) : NoDangling (g.remove_node x) := by
  rw [Graph.remove_node]
  by_cases hx : (lookupAdj g.adj_list x).isSome = true
  · rw [if_pos hx]
    intro e he y hy
    rcases mem_removeAllAdj he with ⟨e0, he0, heq, _⟩
    rw [heq] at hy
    have hy0 : y ∈ e0.2 := mem_eraseFirst hy
    have hyx : y ≠ x := by
      intro hyx
      rw [hyx] at hy
      exact not_mem_eraseFirst_self x (hdup e0 he0) hy
    show (lookupAdj (removeAllAdj g.adj_list x) y).isSome = true
    rw [lookupAdj_removeAllAdj_ne g.adj_list x y hyx]
    have := hND e0 he0 y hy0
    cases hl : lookupAdj g.adj_list y with
    | none => rw [hl] at this; simp at this
    | some v => rfl
  · rw [if_neg hx]
    exact hND

/-! Lemmas about the BFS loop. -/

/-- An empty queue returns the accumulated order unchanged, whatever
the fuel. -/
theorem bfsAux_nil_queue (g : Graph α) (fuel : Nat) (v o : List α) :
    bfsAux g fuel [] v o = o := by
  cases fuel <;> rfl

/-- The BFS loop only ever appends to the accumulated order. -/
theorem bfsAux_extends (g : Graph α) :
    ∀ (fuel : Nat) (q v acc : List α), ∃ t, bfsAux g fuel q v acc = acc ++ t := by
  intro fuel
  induction fuel with
  | zero => exact fun q v acc => ⟨[], by simp [bfsAux]⟩
  | succ n ih =>
    intro q v acc
    cases q with
    | nil => exact ⟨[], by simp [bfsAux]⟩
    | cons c rest =>
      obtain ⟨t, ht⟩ := ih (enqueueNbrs (g.get_neighbors c) v rest).2
        (enqueueNbrs (g.get_neighbors c) v rest).1 (acc ++ [c])
      exact ⟨c :: t, by rw [bfsAux]; rw [ht]; simp⟩

/-- The start node is always in the BFS output order. -/
theorem mem_bfs_start (g : Graph α) (s : α) : s ∈ bfs g s := by
  have hfb : g.fuelBound =
      (g.adj_list.length + (g.adj_list.map (fun e => e.2.length)).sum) + 1 := rfl
  rw [bfs, hfb, bfsAux]
  obtain ⟨t, ht⟩ := bfsAux_extends g
    (g.adj_list.length + (g.adj_list.map (fun e => e.2.length)).sum)
    (enqueueNbrs (g.get_neighbors s) [s] []).2
    (enqueueNbrs (g.get_neighbors s) [s] []).1 ([] ++ [s])
  rw [ht]
  simp

/-! The claim theorems. -/

/-- C1, counterexample: the claim states `is_cyclic` is `false` on the
7-node sample graph, but the sample has seven edges on seven nodes and
contains the cycle A-B-E-F-C-A, so `is_cyclic` already returns `true`
on it. -/
theorem c1_counterexample : build_sample_graph.map Graph.is_cyclic = Except.ok true := by
  rfl

/-- C1, amended: `is_cyclic` returns `true` on the 7-node sample graph
both before and after `add_edge('D','G')` (the sample already contains
the cycle A-B-E-F-C-A); on the actual tree obtained by omitting the
`E-F` edge, `is_cyclic` returns `false`, and becomes `true` once the
back-connecting edge `D-G` is added. -/
theorem c1_is_cyclic_tree_and_sample :
    build_tree_graph.map Graph.is_cyclic = Except.ok false ∧
    (build_tree_graph.bind (fun g => g.add_edge "D" "G" true)).map Graph.is_cyclic =
      Except.ok true ∧
    build_sample_graph.map Graph.is_cyclic = Except.ok true ∧
    (build_sample_graph.bind (fun g => g.add_edge "D" "G" true)).map Graph.is_cyclic =
      Except.ok true :=
  ⟨by rfl, by rfl, by rfl, by rfl⟩

/-- C2: on the sample graph, `shortest_path('A','G')` returns a path
of exactly 4 nodes, namely `[A, C, F, G]`, the path selected by the
neighbor-list insertion-order tie-break (the first dequeue of `G`
carries the path accumulated through `C` and `F`). -/
theorem c2_shortest_path_sample :
    build_sample_graph.map (fun g => g.shortest_path "A" "G") =
      Except.ok ["A", "C", "F", "G"] ∧
    build_sample_graph.map (fun g => (g.shortest_path "A" "G").length) = Except.ok 4 :=
  ⟨by rfl, by rfl⟩

/-- C3: for every graph and every start node that is not a key of the
adjacency mapping, `bfs` returns exactly `[start]` — the absent node's
neighbor lookup yields the empty list, so the loop stops after the
first dequeue and no failure occurs (the embedding is total). -/
theorem c3_bfs_absent_start (g : Graph α) (s : α)
    (h : lookupAdj g.adj_list s = none) : bfs g s = [s] := by
  have hnb : g.get_neighbors s = [] := by rw [Graph.get_neighbors, h]; rfl
  rw [bfs,
    show g.fuelBound =
      (g.adj_list.length + (g.adj_list.map (fun e => e.2.length)).sum) + 1 from rfl,
    bfsAux, hnb]
  exact bfsAux_nil_queue g _ [s] ([] ++ [s])

/-- Witness for C3 at a concrete graph and absent node. -/
theorem c3_bfs_absent_start_witness :
    lookupAdj (Graph.mk [("A", ["B"]), ("B", ["A"])] : Graph String).adj_list "Z" = none ∧
    bfs (Graph.mk [("A", ["B"]), ("B", ["A"])] : Graph String) "Z" = ["Z"] :=
  ⟨by rfl, c3_bfs_absent_start (Graph.mk [("A", ["B"]), ("B", ["A"])]) "Z" (by rfl)⟩

/-- C4: after a successful `add_edge(a, b)` with default
bidirectionality on any graph and any distinct node pair, `b` is a
member of `get_neighbors(a)` and `a` is a member of
`get_neighbors(b)`. -/
theorem c4_add_edge_symmetric (g : Graph α) (a b : α) (g' : Graph α) (hne : a ≠ b)
    (h : g.add_edge a b true = Except.ok g') :
    b ∈ g'.get_neighbors a ∧ a ∈ g'.get_neighbors b :=
  ⟨(add_edge_ok_props g a b g' hne h).2.2.1, (add_edge_ok_props g a b g' hne h).2.2.2⟩

/-- Witness for C4 at a concrete edge insertion into the empty
graph. -/
theorem c4_add_edge_symmetric_witness :
    (("A" : String) ≠ "B" ∧
      (Graph.mk [] : Graph String).add_edge "A" "B" true =
        Except.ok (Graph.mk [("A", ["B"]), ("B", ["A"])])) ∧
    ("B" ∈ (Graph.mk [("A", ["B"]), ("B", ["A"])] : Graph String).get_neighbors "A" ∧
     "A" ∈ (Graph.mk [("A", ["B"]), ("B", ["A"])] : Graph String).get_neighbors "B") :=
  ⟨⟨by decide, by rfl⟩,
   c4_add_edge_symmetric (Graph.mk []) "A" "B" (Graph.mk [("A", ["B"]), ("B", ["A"])])
     (by decide) (by rfl)⟩

/-- C5: every mutation operation — `add_node`, `add_edge` with either
bidirectionality, and `remove_node` — preserves the invariant that
every node appearing in some neighbor list is a top-level key of the
adjacency mapping, on any graph satisfying the data-model invariants
(duplicate-free adjacency lists and no dangling neighbors). -/
theorem c5_mutations_preserve_no_dangling (g g' : Graph α) (n a b x : α) (bi : Bool)
    (hdup : AdjNodup g) (hND : NoDangling g)
    (hok : g.add_edge a b bi = Except.ok g') :
    NoDangling (g.add_node n) ∧ NoDangling g' ∧ NoDangling (g.remove_node x) :=
  ⟨noDangling_add_node g n hND, noDangling_add_edge g a b bi g' hND hok,
   noDangling_remove_node g x hdup hND⟩

/-- Witness for C5 at a concrete two-node graph: adding node `D`,
adding edge `B-C`, and removing node `A` all preserve the no-dangling
invariant. -/
theorem c5_mutations_preserve_no_dangling_witness :
    (AdjNodup (Graph.mk [("A", ["B"]), ("B", ["A"])] : Graph String) ∧
     NoDangling (Graph.mk [("A", ["B"]), ("B", ["A"])] : Graph String) ∧
     (Graph.mk [("A", ["B"]), ("B", ["A"])] : Graph String).add_edge "B" "C" true =
       Except.ok (Graph.mk [("A", ["B"]), ("B", ["A", "C"]), ("C", ["B"])])) ∧
    (NoDangling ((Graph.mk [("A", ["B"]), ("B", ["A"])] : Graph String).add_node "D") ∧
     NoDangling (Graph.mk [("A", ["B"]), ("B", ["A", "C"]), ("C", ["B"])] : Graph String) ∧
     NoDangling ((Graph.mk [("A", ["B"]), ("B", ["A"])] : Graph String).remove_node "A")) :=
  ⟨⟨by decide, by decide, by rfl⟩,
   c5_mutations_preserve_no_dangling (Graph.mk [("A", ["B"]), ("B", ["A"])])
     (Graph.mk [("A", ["B"]), ("B", ["A", "C"]), ("C", ["B"])]) "D" "B" "C" "A" true
     (by decide) (by decide) (by rfl)⟩

/-- C6: `add_edge(a, a)` always fails with the self-loop error, for
every graph, every node value of an allowed type and either value of
`bidirectional`; the error is the operation's synchronous result. -/
theorem c6_self_loop_error (g : Graph α) (a : α) (bi : Bool) :
    g.add_edge a a bi = Except.error GraphError.selfLoopError := by
  rw [Graph.add_edge, if_pos rfl]

/-- C7: `add_edge` is idempotent — on any graph and any distinct node
pair, a second `add_edge(a, b)` returns the graph produced by the
first unchanged (hence every neighbor list is unchanged). -/
theorem c7_add_edge_idempotent (g : Graph α) (a b : α) (g' : Graph α) (hne : a ≠ b)
    (h : g.add_edge a b true = Except.ok g') :
    g'.add_edge a b true = Except.ok g' := by
  obtain ⟨hka, hkb, hba, hab⟩ := add_edge_ok_props g a b g' hne h
  simp only [Graph.add_edge, if_neg hne, if_true]
  rw [add_node_of_isSome g' a hka, add_node_of_isSome g' b hkb,
    addDirected_of_mem g' a b hba, addDirected_of_mem g' b a hab]

/-- Witness for C7 at a concrete edge insertion into the empty
graph. -/
theorem c7_add_edge_idempotent_witness :
    (("A" : String) ≠ "B" ∧
      (Graph.mk [] : Graph String).add_edge "A" "B" true =
        Except.ok (Graph.mk [("A", ["B"]), ("B", ["A"])])) ∧
    (Graph.mk [("A", ["B"]), ("B", ["A"])] : Graph String).add_edge "A" "B" true =
      Except.ok (Graph.mk [("A", ["B"]), ("B", ["A"])]) :=
  ⟨⟨by decide, by rfl⟩,
   c7_add_edge_idempotent (Graph.mk []) "A" "B" (Graph.mk [("A", ["B"]), ("B", ["A"])])
     (by decide) (by rfl)⟩

/-- C8: on any graph satisfying the data-model invariants, after
`remove_node(x)` the node `x` is no longer a key of the adjacency
mapping and no neighbor list (of any node `y`) contains `x`; and when
`x` was absent, `remove_node(x)` leaves the graph unchanged. -/
theorem c8_remove_node_purges (g : Graph α) (x y : α)
    (hdup : AdjNodup g) (hND : NoDangling g) :
    lookupAdj (g.remove_node x).adj_list x = none ∧
    x ∉ (g.remove_node x).get_neighbors y ∧
    (lookupAdj g.adj_list x = none → g.remove_node x = g) := by
  refine ⟨?_, ?_, ?_⟩
  · rw [Graph.remove_node]
    by_cases hx : (lookupAdj g.adj_list x).isSome = true
    · rw [if_pos hx]
      exact lookupAdj_removeAllAdj_self g.adj_list x
    · rw [if_neg hx]
      exact Option.not_isSome_iff_eq_none.mp hx
  · by_cases hx : (lookupAdj g.adj_list x).isSome = true
    · rw [Graph.remove_node, if_pos hx]
      show x ∉ (lookupAdj (removeAllAdj g.adj_list x) y).getD []
      by_cases hyx : y = x
      · rw [hyx, lookupAdj_removeAllAdj_self]
        simp
      · rw [lookupAdj_removeAllAdj_ne g.adj_list x y hyx]
        cases hl : lookupAdj g.adj_list y with
        | none => simp
        | some v =>
          show x ∉ ((some v).map (fun v => eraseFirst v x)).getD []
          exact not_mem_eraseFirst_self x (hdup (y, v) (lookupAdj_mem hl))
    · rw [Graph.remove_node, if_neg hx]
      intro hmem
      rcases get_neighbors_cases g y with hnil | hm
      · rw [hnil] at hmem
        simp at hmem
      · exact hx (hND _ hm x hmem)
  · intro h
    rw [Graph.remove_node, if_neg (by simp [h])]

/-- Witness for C8 at a concrete two-node graph with `x` present, plus
the no-op conclusion instantiated there. -/
theorem c8_remove_node_purges_witness :
    (AdjNodup (Graph.mk [("A", ["B"]), ("B", ["A"])] : Graph String) ∧
     NoDangling (Graph.mk [("A", ["B"]), ("B", ["A"])] : Graph String)) ∧
    (lookupAdj ((Graph.mk [("A", ["B"]), ("B", ["A"])] : Graph String).remove_node "B").adj_list
        "B" = none ∧
     "B" ∉ ((Graph.mk [("A", ["B"]), ("B", ["A"])] : Graph String).remove_node "B").get_neighbors
        "A" ∧
     (lookupAdj (Graph.mk [("A", ["B"]), ("B", ["A"])] : Graph String).adj_list "B" = none →
       (Graph.mk [("A", ["B"]), ("B", ["A"])] : Graph String).remove_node "B" =
         Graph.mk [("A", ["B"]), ("B", ["A"])])) :=
  ⟨⟨by decide, by decide⟩,
   c8_remove_node_purges (Graph.mk [("A", ["B"]), ("B", ["A"])]) "B" "A"
     (by decide) (by decide)⟩

/-- C10: `has_path(x, x)` returns `true` on every graph and every node
value, present or not, because BFS always places the start node in its
output order. -/
theorem c10_has_path_self (g : Graph α) (x : α) : g.has_path x x = true := by
  rw [Graph.has_path, decide_eq_true_eq]
  exact mem_bfs_start g x
